import Mathlib

/-!
Verification of the Schulze voting engine (package `schulze`, file `schulze.go`).

The Go code stores an N×N matrix as a flat `[]int` indexed by `i*N+j`.  We embed
such an array as a curried total function `Mat := Nat → Nat → Int`; a write
`a[i*N+j] = v` becomes the functional update `upd`.  Loops `for i := 0; i < n; i++`
become structural recursions that process `0, 1, …, n-1` in order, one cell
write at a time, reading the live values exactly as the Go code does.
-/

namespace Schulze

/-- Flat `[]int` matrix viewed as a curried function on indices. -/
abbrev Mat : Type := Nat → Nat → Int

/-- Single cell write `a[i*N+j] = v` of the flat array. -/
def upd (S : Mat) (r c : Nat) (v : Int) : Mat :=
  fun r' c' => if r' = r ∧ c' = c then v else S r' c'

/-- The all-zero array produced by `make([]int, n*n)`. -/
def zeroMat : Mat := fun _ _ => 0

/-! ## calculatePairwiseStrengths, first loop (direct margins)

Go source (schulze.go:372-382): for each `i`, for each `j`, with `c :=
preferences[ij]`, if `c > preferences[ji]` write `strengths[ij] = c`.
-/

/-- Body of the inner `j` loop of the first loop of `calculatePairwiseStrengths`. -/
def initCell (P : Mat) (S : Mat) (i j : Nat) : Mat :=
  if P i j > P j i then upd S i j (P i j) else S

/-- Inner `j` loop (first loop): `initRowAux P i S m` has processed `j = 0, …, m-1`. -/
def initRowAux (P : Mat) (i : Nat) (S : Mat) : Nat → Mat
  | 0 => S
  | j + 1 => initCell P (initRowAux P i S j) i j

/-- Outer `i` loop (first loop): `initAux P n S m` has processed rows `i = 0, …, m-1`. -/
def initAux (P : Mat) (n : Nat) (S : Mat) : Nat → Mat
  | 0 => S
  | i + 1 => initRowAux P i (initAux P n S i) n

/-- The complete first loop of `calculatePairwiseStrengths`. -/
def initLoop (n : Nat) (P : Mat) (S : Mat) : Mat := initAux P n S n

/-- Edge weight of the margin graph: `M[u][v]` when `M[u][v] > M[v][u]`, else `0`.
This is exactly what one pass of the first loop writes into a zeroed cell. -/
def edge (P : Mat) (u v : Nat) : Int := if P u v > P v u then P u v else 0

/-! ## calculatePairwiseStrengths, second loop (widest-path relaxation)

Go source (schulze.go:384-406): for each `i`, for each `j`, with
`jip := strengths[ji]` read once per row, for each `k`:
`m := max(strengths[jk], min(jip, strengths[ik]))`, and write
`strengths[jk] = m` only when it differs from the current value.
-/

/-- Inner `k` loop of the relaxation: `relaxCellsAux i jip j S m` has processed
`k = 0, …, m-1`, writing row `j` in place (conditional write as in the source). -/
def relaxCellsAux (i : Nat) (jip : Int) (j : Nat) (S : Mat) : Nat → Mat
  | 0 => S
  | k + 1 =>
    if relaxCellsAux i jip j S k j k ≠
        max (relaxCellsAux i jip j S k j k) (min jip (relaxCellsAux i jip j S k i k)) then
      upd (relaxCellsAux i jip j S k) j k
        (max (relaxCellsAux i jip j S k j k) (min jip (relaxCellsAux i jip j S k i k)))
    else relaxCellsAux i jip j S k

/-- The `j` loop body of the relaxation: processes one row with `jip = strengths[ji]`. -/
def relaxRow (n i j : Nat) (S : Mat) : Mat := relaxCellsAux i (S j i) j S n

/-- The `j` loop of the relaxation: `relaxRowsAux n i S m` has processed rows `0, …, m-1`. -/
def relaxRowsAux (n i : Nat) (S : Mat) : Nat → Mat
  | 0 => S
  | j + 1 => relaxRow n i j (relaxRowsAux n i S j)

/-- One full iteration of the outer `i` loop of the relaxation. -/
def relaxIter (n i : Nat) (S : Mat) : Mat := relaxRowsAux n i S n

/-- The outer `i` loop: `relaxAux n S m` has processed intermediates `i = 0, …, m-1`. -/
def relaxAux (n : Nat) (S : Mat) : Nat → Mat
  | 0 => S
  | i + 1 => relaxIter n i (relaxAux n S i)

/-- The complete second loop of `calculatePairwiseStrengths`. -/
def relaxLoop (n : Nat) (S : Mat) : Mat := relaxAux n S n

/-- `calculatePairwiseStrengths` (schulze.go:361-409) as a function on cells:
first loop from a fresh zero array, then the relaxation loop. -/
def calculatePairwiseStrengths (n : Nat) (P : Mat) : Mat :=
  relaxLoop n (initLoop n P zeroMat)

/-- The returned `[]int` slice of `calculatePairwiseStrengths`: `nil` for zero
choices, otherwise the `n*n` cells in flat order. -/
def strengthsList (n : Nat) (P : Mat) : List Int :=
  if n = 0 then []
  else (List.range (n * n)).map fun t => calculatePairwiseStrengths n P (t / n) (t % n)

/-! ## Paths in the margin graph

A directed path from `u` to `v` is written as the list of intermediate
vertices visited strictly between them; `bottleneck` is the minimum edge
weight along the path.  These are specification devices for the claim that
the relaxation computes widest (maximum–bottleneck) path strengths.
-/

/-- Minimum edge weight along the path `u → p₀ → p₁ → … → v`. -/
def bottleneck (P : Mat) : Nat → List Nat → Nat → Int
  | u, [], v => edge P u v
  | u, w :: p, v => min (edge P u w) (bottleneck P w p v)

/-- State of the strengths array after the relaxation has run intermediates
`0, …, m-1` over the output of the first loop. -/
def stage (n : Nat) (P : Mat) (m : Nat) : Mat :=
  relaxAux n (initLoop n P zeroMat) m

/-- Concrete 3-choice preference matrix (a majority cycle) used to instantiate
theorems with hypotheses on a concrete input. -/
def exampleP : Mat := fun i j =>
  if i = 0 ∧ j = 1 then 3
  else if i = 1 ∧ j = 2 then 4
  else if i = 2 ∧ j = 0 then 5
  else 0

/-! ## Ballots, records, Vote and Unvote

Go source: `Ballot` is `map[C]int` (embedded as an association list in the
map's iteration order), `Record` is `[][]C`, `getChoiceIndex` returns the
first index of a value or `-1` (schulze.go:292-299), `ballotRanks` groups the
ballot by rank and appends the unranked tier (schulze.go:301-357), `Vote`
applies a ballot (schulze.go:36-85) and `Unvote` reverses a record
(schulze.go:88-150).  The `bitSet` used by the source to mark ranked/known
indices is embedded at its membership contract: a list of marked indices
queried with `contains`.
-/

/-- UnknownChoiceError of the Go package: carries the offending choice value. -/
structure UnknownChoiceError (C : Type) where
  Choice : C
deriving DecidableEq

/-- A ballot: ranked choices, as the association list of a `map[C]int`. -/
abbrev Ballot (C : Type) := List (C × Int)

/-- A record: the normalized tiers of choice values returned by `Vote`. -/
abbrev Record (C : Type) := List (List C)

/-- Linear scan returning the first index of `choice`, or `-1` when absent. -/
def getChoiceIndex {C : Type} [DecidableEq C] : List C → C → Int
  | [], _ => -1
  | c :: rest, choice =>
    if c = choice then 0
    else if getChoiceIndex rest choice < 0 then -1 else getChoiceIndex rest choice + 1

/-- Index lookup followed by the `if i < 0 { continue }` guard of the source. -/
def resolveIndex {C : Type} [DecidableEq C] (choices : List C) (c : C) : Option Nat :=
  if getChoiceIndex choices c < 0 then none else some (getChoiceIndex choices c).toNat

/-- Append `idx` to the bucket of `rank` (the `ballotRanks[rank] = append(…)`
map update), keeping insertion order of buckets. -/
def addToRanks : List (Int × List Nat) → Int → Nat → List (Int × List Nat)
  | [], rank, idx => [(rank, [idx])]
  | (r, l) :: rest, rank, idx =>
    if r = rank then (r, l ++ [idx]) :: rest else (r, l) :: addToRanks rest rank idx

/-- The ballot traversal of `ballotRanks`: resolves each ballot entry to its
index, failing on the first unknown choice. -/
def collectRanks {C : Type} [DecidableEq C] (choices : List C) :
    Ballot C → List (Int × List Nat) →
      Except (UnknownChoiceError C) (List (Int × List Nat))
  | [], acc => .ok acc
  | (choice, rank) :: rest, acc =>
    if getChoiceIndex choices choice < 0 then .error ⟨choice⟩
    else collectRanks choices rest (addToRanks acc rank (getChoiceIndex choices choice).toNat)

/-- Bucket lookup by rank number. -/
def lookupRanks : List (Int × List Nat) → Int → List Nat
  | [], _ => []
  | (r, l) :: rest, rank => if r = rank then l else lookupRanks rest rank

/-- `ballotRanks` (schulze.go:301-357): ordered rank tiers of choice indices,
the choices count, and whether the ballot left choices unranked. -/
def ballotRanks {C : Type} [DecidableEq C] (choices : List C) (b : Ballot C) :
    Except (UnknownChoiceError C) (List (List Nat) × Nat × Bool) :=
  let choicesLen := choices.length
  let ballotLen := b.length
  let hasUnrankedChoices := ballotLen != choicesLen
  match collectRanks choices b [] with
  | .error e => .error e
  | .ok buckets =>
    let rankNumbers := buckets.map (fun x => x.1)
    let sortedRanks := rankNumbers.insertionSort (fun a b => a ≤ b)
    let ranks := sortedRanks.map (fun rank => lookupRanks buckets rank)
    let rankedIdx := buckets.flatMap (fun x => x.2)
    let unranked := (List.range choicesLen).filter (fun i => !(rankedIdx.contains i))
    let ranksFull :=
      if hasUnrankedChoices then
        if unranked.length > 0 then ranks ++ [unranked] else ranks
      else ranks
    .ok (ranksFull, choicesLen, hasUnrankedChoices)

/-- In-place increment/decrement `preferences[i*N+j] += d` of a single cell. -/
def addPref (M : Mat) (i j : Nat) (d : Int) : Mat := upd M i j (M i j + d)

/-- Inner loops of Vote pairing one index of a tier against all later tiers. -/
def prefTierRest (rest : List (List Nat)) (d : Int) (i : Nat) (M : Mat) : Mat :=
  rest.foldl (fun M tier2 => tier2.foldl (fun M j => addPref M i j d) M) M

/-- The tier-pair loop of Vote: each tier against all strictly later tiers. -/
def prefPairs (d : Int) : List (List Nat) → Mat → Mat
  | [], M => M
  | tier :: rest, M => prefPairs d rest (tier.foldl (fun M i => prefTierRest rest d i M) M)

/-- `Vote` (schulze.go:36-85): pure state-passing version returning the result
of the Go function (record or error) together with the preferences array. -/
def vote {C : Type} [DecidableEq C] [Inhabited C]
    (preferences : Mat) (choices : List C) (b : Ballot C) :
    Except (UnknownChoiceError C) (Record C) × Mat :=
  match ballotRanks choices b with
  | .error e => (.error e, preferences)
  | .ok (ranks, choicesCount, hasUnrankedChoices) =>
    let M1 := prefPairs 1 ranks preferences
    let M2 :=
      if hasUnrankedChoices then
        if ranks.length > 0 then
          ranks.dropLast.foldl (fun M tier => tier.foldl (fun M i => addPref M i i 1) M) M1
        else M1
      else (List.range choicesCount).foldl (fun M i => addPref M i i 1) M1
    let r := ranks.map (fun tier => tier.map (fun index => choices.getD index default))
    (.ok r, M2)

/-- Inner loops of Unvote pairing one resolved index against all later tiers,
skipping record choices that are absent from the current choice sequence. -/
def decPairsTier {C : Type} [DecidableEq C]
    (choices : List C) (rest : List (List C)) (i : Nat) (M : Mat) : Mat :=
  rest.foldl (fun M tier2 =>
    tier2.foldl (fun M c2 =>
      match resolveIndex choices c2 with
      | none => M
      | some j => addPref M i j (-1)) M) M

/-- The tier-pair loop of Unvote over the record. -/
def decPairs {C : Type} [DecidableEq C] (choices : List C) :
    List (List C) → Mat → Mat
  | [], M => M
  | tier :: rest, M =>
    decPairs choices rest
      (tier.foldl (fun M c1 =>
        match resolveIndex choices c1 with
        | none => M
        | some i => decPairsTier choices rest i M) M)

/-- Resolved indices of one record tier, dropping absent choices. -/
def resolveTier {C : Type} [DecidableEq C] (choices : List C) (tier : List C) : List Nat :=
  tier.filterMap (resolveIndex choices)

/-- Second loop of Unvote: decrement the diagonal of every resolved choice of
the ranked tiers of the record (all tiers but the last). -/
def decDiag {C : Type} [DecidableEq C]
    (choices : List C) (tiers : List (List C)) (M : Mat) : Mat :=
  tiers.foldl (fun M tier =>
    tier.foldl (fun M c1 =>
      match resolveIndex choices c1 with
      | none => M
      | some i => addPref M i i (-1)) M) M

/-- Final loop of Unvote: remove the votes that ranked choices of the record
gave against the choices the record does not know about. -/
def decUnknown (choicesCount : Nat) (rankedChoices knownChoices : List Nat) (M : Mat) : Mat :=
  (List.range choicesCount).foldl (fun M i =>
    if rankedChoices.contains i then
      (List.range choicesCount).foldl (fun M j =>
        if !(knownChoices.contains j) then addPref M i j (-1) else M) M
    else M) M

/-- `Unvote` (schulze.go:88-150): pure state-passing version.  The Go function
returns an `error` that is `nil` on every path; the first component mirrors it. -/
def unvote {C : Type} [DecidableEq C]
    (preferences : Mat) (choices : List C) (r : Record C) :
    Option (UnknownChoiceError C) × Mat :=
  if r.length = 0 then (none, preferences)
  else
    let M1 := decPairs choices r preferences
    let M2 := decDiag choices r.dropLast M1
    let rankedChoices := r.dropLast.flatMap (resolveTier choices)
    let knownChoices := rankedChoices ++ resolveTier choices (r.getD (r.length - 1) [])
    (none, decUnknown choices.length rankedChoices knownChoices M2)

/-- A record with the choices absent from `choices` removed from every tier. -/
def filterRecord {C : Type} [DecidableEq C] (choices : List C) (r : Record C) : Record C :=
  r.map (fun tier => tier.filter (fun c => decide (c ∈ choices)))

/-! ## SetChoices

Go source (schulze.go:156-181): allocate a fresh `updatedLength²` slice; for
every `(iUpdated, j)` either copy the aligned cell directly (when both
positions hold the same choice in both sequences), or re-resolve both choices
in the current sequence and copy `preferences[iCurrent*currentLength+jCurrent]`
(diagonal column for a brand-new choice, zero when the row choice is new).
-/

/-- One cell of the matrix produced by `SetChoices`. -/
def setChoicesCell {C : Type} [DecidableEq C] [Inhabited C]
    (preferences : Mat) (current updated : List C) (iUpdated j : Nat) : Int :=
  let currentLength := current.length
  let iCurrent := getChoiceIndex current (updated.getD iUpdated default)
  if iUpdated < currentLength ∧ updated.getD iUpdated default = current.getD iUpdated default
      ∧ j < currentLength ∧ updated.getD j default = current.getD j default then
    preferences iUpdated j
  else
    let jCurrent := getChoiceIndex current (updated.getD j default)
    if iCurrent ≥ 0 then
      if jCurrent ≥ 0 then preferences iCurrent.toNat jCurrent.toNat
      else preferences iCurrent.toNat iCurrent.toNat
    else 0

/-- `SetChoices` (schulze.go:156-181): the fresh flat slice, cell by cell. -/
def setChoices {C : Type} [DecidableEq C] [Inhabited C]
    (preferences : Mat) (current updated : List C) : List Int :=
  let updatedLength := updated.length
  (List.range (updatedLength * updatedLength)).map fun t =>
    setChoicesCell preferences current updated (t / updatedLength) (t % updatedLength)

/-! ## NewPreferences, calculateResults and Compute

Go source: `NewPreferences` (schulze.go:19-21) allocates a zeroed flat slice;
`calculateResults` (schulze.go:411-455) builds one `Result` per choice and
sorts with `sort.Slice` under a total less function (wins descending, then
strength descending, then index ascending — the total tie-break makes the
sorted slice unique, so any correct sort gives the same list; we embed it as
insertion sort); `Compute` (schulze.go:216-220) chains strengths and results.
-/

/-- `NewPreferences` (schulze.go:19-21): zeroed flat slice of size `n²`. -/
def NewPreferences (choicesLength : Nat) : List Int :=
  List.replicate (choicesLength * choicesLength) 0

/-- View of a flat preferences slice of a size-`n` election as a `Mat`. -/
def prefsOf (l : List Int) (n : Nat) : Mat := fun i j => l.getD (i * n + j) 0

/-- Result of the Go package for a single choice. -/
structure Result (C : Type) where
  Choice : C
  Index : Nat
  Wins : Nat
  Strength : Int
  Advantage : Int
deriving DecidableEq

/-- The inner `j` scan of `calculateResults`: opponents that choice `i` beats
(`i ≠ j` and `S[i][j] > S[j][i]`). -/
def winners (n : Nat) (S : Mat) (i : Nat) : List Nat :=
  (List.range n).filter fun j => decide (j ≠ i ∧ S i j > S j i)

/-- One entry of the results slice as the first loop of `calculateResults`
accumulates it. -/
def resultFor {C : Type} [Inhabited C] (choices : List C) (S : Mat) (i : Nat) : Result C :=
  { Choice := choices.getD i default
    Index := i
    Wins := (winners choices.length S i).length
    Strength := ((winners choices.length S i).map fun j => S i j).sum
    Advantage := ((winners choices.length S i).map fun j => S i j - S j i).sum }

/-- The results slice before sorting. -/
def resultsUnsorted {C : Type} [Inhabited C] (choices : List C) (S : Mat) : List (Result C) :=
  (List.range choices.length).map (resultFor choices S)

/-- The less function passed to `sort.Slice` (schulze.go:440-448). -/
def resultLess {C : Type} (a b : Result C) : Prop :=
  if a.Wins ≠ b.Wins then a.Wins > b.Wins
  else if a.Strength ≠ b.Strength then a.Strength > b.Strength
  else a.Index < b.Index

instance {C : Type} : DecidableRel (@resultLess C) := fun a b => by
  unfold resultLess
  infer_instance

/-- The non-strict order induced by the sort's less function. -/
def resultLE {C : Type} (a b : Result C) : Prop := ¬ resultLess b a

instance {C : Type} : DecidableRel (@resultLE C) := fun a b => by
  unfold resultLE
  infer_instance

instance {C : Type} : IsTotal (Result C) resultLE where
  total a b := by
    unfold resultLE
    by_cases h : resultLess b a
    · right
      intro h2
      unfold resultLess at h h2
      split_ifs at h h2 <;> omega
    · left
      exact h

instance {C : Type} : IsTrans (Result C) resultLE where
  trans a b c hab hbc := by
    unfold resultLE at hab hbc ⊢
    intro h
    unfold resultLess at hab hbc h
    split_ifs at hab hbc h <;> omega

/-- `calculateResults` (schulze.go:411-455): the sorted results and the tie flag. -/
def calculateResults {C : Type} [DecidableEq C] [Inhabited C]
    (choices : List C) (S : Mat) : List (Result C) × Bool :=
  let results := (resultsUnsorted choices S).insertionSort resultLE
  let tie := match results with
    | r0 :: r1 :: _ => decide (r0.Wins = r1.Wins)
    | _ => false
  (results, tie)

/-- `Compute` (schulze.go:216-220), results and tie components: strengths from
the preferences, then result derivation.  (The duels component is embedded
separately below as `duelsAt` over the same strengths.) -/
def compute {C : Type} [DecidableEq C] [Inhabited C]
    (preferences : Mat) (choices : List C) : List (Result C) × Bool :=
  calculateResults choices (calculatePairwiseStrengths choices.length preferences)

/-! ## Duels iterator

Go source: `newDuelsIterator` (schulze.go:225-256) returns a closure over a
captured `(row, column)` state, emits one `Duel` per call in row-major order
of pairs `i < j`, and returns nil forever once exhausted; `Duel.Outcome`
(schulze.go:269-277) compares the two strengths.
-/

/-- ChoiceStrength of the Go package. -/
structure ChoiceStrength (C : Type) where
  Choice : C
  Index : Nat
  Strength : Int
deriving DecidableEq

/-- Duel of the Go package: one pairwise comparison. -/
structure Duel (C : Type) where
  Left : ChoiceStrength C
  Right : ChoiceStrength C
deriving DecidableEq

/-- `Duel.Outcome` (schulze.go:269-277). -/
def duelOutcome {C : Type} (d : Duel C) :
    Option (ChoiceStrength C) × Option (ChoiceStrength C) :=
  if d.Left.Strength > d.Right.Strength then (some d.Left, some d.Right)
  else if d.Right.Strength > d.Left.Strength then (some d.Right, some d.Left)
  else (none, none)

/-- The Duel built for the index pair `p = (row, column)` (schulze.go:243-254). -/
def mkDuel {C : Type} [Inhabited C] (choices : List C) (S : Mat) (p : Nat × Nat) : Duel C :=
  { Left := ⟨choices.getD p.1 default, p.1, S (p.1) (p.2)⟩
    Right := ⟨choices.getD p.2 default, p.2, S (p.2) (p.1)⟩ }

/-- One call of the iterator closure: the emitted duel (nil when the captured
state is out of range, which also leaves the state unchanged) and the advanced
state from the deferred increment. -/
def duelsStep {C : Type} [Inhabited C] (choices : List C) (S : Mat) (st : Nat × Nat) :
    Option (Duel C) × (Nat × Nat) :=
  if choices.length ≤ st.1 ∨ choices.length ≤ st.2 then (none, st)
  else
    (some (mkDuel choices S st),
      if choices.length ≤ st.2 + 1 then (st.1 + 1, st.1 + 2) else (st.1, st.2 + 1))

/-- Result of the k-th call (0-based) of the iterator started in state `st`. -/
def duelsCall {C : Type} [Inhabited C] (choices : List C) (S : Mat) :
    Nat × Nat → Nat → Option (Duel C)
  | st, 0 => (duelsStep choices S st).1
  | st, k + 1 => duelsCall choices S (duelsStep choices S st).2 k

/-- Result of the k-th call of `Compute`'s duels iterator (initial state: row
0, column 1). -/
def duelsAt {C : Type} [Inhabited C] (choices : List C) (S : Mat) (k : Nat) :
    Option (Duel C) :=
  duelsCall choices S (0, 1) k

/-- All index pairs `(i, j)` with `i < j < n`, in row-major order. -/
def duelPairs (n : Nat) : List (Nat × Nat) :=
  (List.range n).flatMap fun i => (List.range' (i + 1) (n - (i + 1))).map fun j => (i, j)

/-- Pairs still to be emitted from iterator state `st` (specification device
mirroring the iterator's control flow). -/
def pairsFrom (n : Nat) (st : Nat × Nat) : List (Nat × Nat) :=
  if n ≤ st.1 ∨ n ≤ st.2 then []
  else if n ≤ st.2 + 1 then (st.1, st.2) :: pairsFrom n (st.1 + 1, st.1 + 2)
  else (st.1, st.2) :: pairsFrom n (st.1, st.2 + 1)
termination_by (n - st.1, n - st.2)
decreasing_by
  · exact Prod.Lex.left _ _ (by omega)
  · exact Prod.Lex.right _ (by omega)

/-! ## Frame of the strength computation

`calculatePairwiseStrengths` holds two arrays: the borrowed `preferences` and
the freshly allocated `strengths`; every store of the function goes through
`strengthsPtr` (schulze.go:370, 379, 401-403).  To state that the preferences
array is never written, the same loops are embedded once more over the pair of
both arrays, with `updStr` as the embedding of each store.
-/

/-- A store through `strengthsPtr`: writes the strengths component only. -/
def updStr (st : Mat × Mat) (r c : Nat) (v : Int) : Mat × Mat :=
  (st.1, upd st.2 r c v)

/-- First loop, cell body, over the array pair (reads preferences, writes strengths). -/
def initCellS (st : Mat × Mat) (i j : Nat) : Mat × Mat :=
  if st.1 i j > st.1 j i then updStr st i j (st.1 i j) else st

/-- First loop, inner `j` loop, over the array pair. -/
def initRowAuxS (i : Nat) (st : Mat × Mat) : Nat → Mat × Mat
  | 0 => st
  | j + 1 => initCellS (initRowAuxS i st j) i j

/-- First loop, outer `i` loop, over the array pair. -/
def initAuxS (n : Nat) (st : Mat × Mat) : Nat → Mat × Mat
  | 0 => st
  | i + 1 => initRowAuxS i (initAuxS n st i) n

/-- Relaxation, inner `k` loop, over the array pair (reads and writes strengths). -/
def relaxCellsAuxS (i : Nat) (jip : Int) (j : Nat) (st : Mat × Mat) : Nat → Mat × Mat
  | 0 => st
  | k + 1 =>
    if (relaxCellsAuxS i jip j st k).2 j k ≠
        max ((relaxCellsAuxS i jip j st k).2 j k)
          (min jip ((relaxCellsAuxS i jip j st k).2 i k)) then
      updStr (relaxCellsAuxS i jip j st k) j k
        (max ((relaxCellsAuxS i jip j st k).2 j k)
          (min jip ((relaxCellsAuxS i jip j st k).2 i k)))
    else relaxCellsAuxS i jip j st k

/-- Relaxation, row body, over the array pair. -/
def relaxRowS (n i j : Nat) (st : Mat × Mat) : Mat × Mat :=
  relaxCellsAuxS i (st.2 j i) j st n

/-- Relaxation, `j` loop, over the array pair. -/
def relaxRowsAuxS (n i : Nat) (st : Mat × Mat) : Nat → Mat × Mat
  | 0 => st
  | j + 1 => relaxRowS n i j (relaxRowsAuxS n i st j)

/-- Relaxation, outer `i` loop, over the array pair. -/
def relaxAuxS (n : Nat) (st : Mat × Mat) : Nat → Mat × Mat
  | 0 => st
  | i + 1 => relaxRowsAuxS n i (relaxAuxS n st i) n

/-- `calculatePairwiseStrengths` over the pair of both arrays: the borrowed
preferences together with the freshly allocated zero strengths array. -/
def calculatePairwiseStrengthsState (n : Nat) (P : Mat) : Mat × Mat :=
  relaxAuxS n (initAuxS n (P, zeroMat) n) n

/-! ## Theorems: cell-level characterization of the loops -/

theorem upd_apply (S : Mat) (r c : Nat) (v : Int) (r' c' : Nat) :
    upd S r c v r' c' = if r' = r ∧ c' = c then v else S r' c' := rfl

theorem upd_self (S : Mat) (r c : Nat) : upd S r c (S r c) = S := by
  funext r' c'
  by_cases h : r' = r ∧ c' = c
  · rcases h with ⟨h1, h2⟩; subst h1; subst h2; simp [upd]
  · simp [upd, h]

theorem upd_cond (S : Mat) (r c : Nat) (v : Int) :
    (if S r c ≠ v then upd S r c v else S) = upd S r c v := by
  by_cases h : S r c = v
  · rw [if_neg (by simp [h]), ← h, upd_self]
  · rw [if_pos h]

theorem initRowAux_apply (P : Mat) (i : Nat) (S : Mat) (m : Nat) :
    ∀ r c, initRowAux P i S m r c =
      if r = i ∧ c < m ∧ P i c > P c i then P i c else S r c := by
  induction m with
  | zero => intro r c; simp [initRowAux]
  | succ m ih =>
    intro r c
    show initCell P (initRowAux P i S m) i m r c = _
    rw [initCell]
    by_cases hr : r = i
    · subst hr
      by_cases hc : c < m
      · have hcm : ¬(c = m) := by omega
        have hc1 : c < m + 1 := by omega
        by_cases hgt : P r m > P m r
        · rw [if_pos hgt, upd_apply, if_neg (by simp [hcm]), ih r c]
          simp [hc, hc1]
        · rw [if_neg hgt, ih r c]
          simp [hc, hc1]
      · by_cases hcm : c = m
        · subst hcm
          by_cases hgt : P r c > P c r
          · rw [if_pos hgt, upd_apply, if_pos ⟨rfl, rfl⟩]
            simp [hgt, Nat.lt_succ_self]
          · rw [if_neg hgt, ih r c]
            simp [hc, hgt]
        · have hc1 : ¬(c < m + 1) := by omega
          by_cases hgt : P r m > P m r
          · rw [if_pos hgt, upd_apply, if_neg (by simp [hcm]), ih r c]
            simp [hc, hc1]
          · rw [if_neg hgt, ih r c]
            simp [hc, hc1]
    · by_cases hgt : P i m > P m i
      · rw [if_pos hgt, upd_apply, if_neg (by simp [hr]), ih r c]
        simp [hr]
      · rw [if_neg hgt, ih r c]
        simp [hr]

theorem initAux_apply (P : Mat) (n : Nat) (S : Mat) (m : Nat) :
    ∀ r c, initAux P n S m r c =
      if r < m ∧ c < n ∧ P r c > P c r then P r c else S r c := by
  induction m with
  | zero => intro r c; simp [initAux]
  | succ m ih =>
    intro r c
    show initRowAux P m (initAux P n S m) n r c = _
    rw [initRowAux_apply, ih r c]
    by_cases hr : r = m
    · subst hr
      simp [Nat.lt_irrefl, Nat.lt_succ_self]
    · by_cases hrm : r < m
      · simp [hr, hrm, show r < m + 1 by omega]
      · simp [hr, hrm, show ¬(r < m + 1) by omega]

theorem initLoop_apply (n : Nat) (P : Mat) (r c : Nat) :
    initLoop n P zeroMat r c =
      if r < n ∧ c < n then edge P r c else 0 := by
  rw [initLoop, initAux_apply, zeroMat, edge]
  by_cases h1 : r < n
  · by_cases h2 : c < n
    · by_cases h3 : P r c > P c r
      · simp [h1, h2, h3]
      · simp [h1, h2, h3]
    · simp [h1, h2]
  · simp [h1]

theorem relaxCellsAux_apply (i : Nat) (jip : Int) (j : Nat) (S : Mat) (m : Nat) :
    ∀ r c, relaxCellsAux i jip j S m r c =
      if r = j ∧ c < m then max (S j c) (min jip (S i c)) else S r c := by
  induction m with
  | zero => intro r c; simp [relaxCellsAux]
  | succ m ih =>
    intro r c
    have hjk : relaxCellsAux i jip j S m j m = S j m := by
      rw [ih j m]; simp
    have hik : relaxCellsAux i jip j S m i m = S i m := by
      rw [ih i m]
      by_cases hij : i = j
      · simp [hij]
      · simp [hij]
    have hstep : relaxCellsAux i jip j S (m + 1)
        = if relaxCellsAux i jip j S m j m ≠
            max (relaxCellsAux i jip j S m j m) (min jip (relaxCellsAux i jip j S m i m)) then
          upd (relaxCellsAux i jip j S m) j m
            (max (relaxCellsAux i jip j S m j m) (min jip (relaxCellsAux i jip j S m i m)))
        else relaxCellsAux i jip j S m := rfl
    rw [hstep, upd_cond, upd_apply, hjk, hik]
    by_cases hr : r = j
    · subst hr
      by_cases hcm : c = m
      · subst hcm
        simp [Nat.lt_succ_self]
      · rw [if_neg (by simp [hcm]), ih r c]
        by_cases hc : c < m
        · simp [hc, show c < m + 1 by omega]
        · simp [hc, show ¬(c < m + 1) by omega]
    · rw [if_neg (by simp [hr]), ih r c]
      simp [hr]

theorem relaxRow_apply (n i j : Nat) (S : Mat) (r c : Nat) :
    relaxRow n i j S r c =
      if r = j ∧ c < n then max (S j c) (min (S j i) (S i c)) else S r c := by
  rw [relaxRow, relaxCellsAux_apply]

theorem relaxRowsAux_apply (n i : Nat) (S : Mat) (m : Nat) :
    ∀ r c, relaxRowsAux n i S m r c =
      if r < m ∧ c < n then max (S r c) (min (S r i) (S i c)) else S r c := by
  induction m with
  | zero => intro r c; simp [relaxRowsAux]
  | succ m ih =>
    intro r c
    have hrowi : ∀ c', relaxRowsAux n i S m i c' = S i c' := by
      intro c'
      rw [ih i c']
      by_cases h : i < m ∧ c' < n
      · rw [if_pos h]
        have : min (S i i) (S i c') ≤ S i c' := min_le_right _ _
        omega
      · rw [if_neg h]
    show relaxRow n i m (relaxRowsAux n i S m) r c = _
    rw [relaxRow_apply]
    by_cases hr : r = m
    · subst hr
      by_cases hc : c < n
      · rw [if_pos ⟨rfl, hc⟩]
        have h1 : relaxRowsAux n i S r r c = S r c := by
          rw [ih r c]; simp
        have h2 : relaxRowsAux n i S r r i = S r i := by
          rw [ih r i]; simp
        rw [h1, h2, hrowi c]
        simp [hc, Nat.lt_succ_self]
      · rw [if_neg (by simp [hc]), ih r c]
        simp [hc]
    · rw [if_neg (by simp [hr]), ih r c]
      by_cases hrm : r < m
      · simp [hrm, show r < m + 1 by omega]
      · simp [hrm, show ¬(r < m + 1) by omega]

theorem relaxIter_apply (n i : Nat) (S : Mat) (r c : Nat) :
    relaxIter n i S r c =
      if r < n ∧ c < n then max (S r c) (min (S r i) (S i c)) else S r c := by
  rw [relaxIter, relaxRowsAux_apply]

/-! ## Theorems: the relaxation computes widest-path strengths -/

theorem bottleneck_append (P : Mat) (u w v : Nat) (p q : List Nat) :
    bottleneck P u (p ++ w :: q) v =
      min (bottleneck P u p w) (bottleneck P w q v) := by
  induction p generalizing u with
  | nil => simp [bottleneck]
  | cons x p ih =>
    show min (edge P u x) (bottleneck P x (p ++ w :: q) v) = _
    rw [ih x]
    show _ = min (min (edge P u x) (bottleneck P x p w)) (bottleneck P w q v)
    rw [min_assoc]

theorem mem_split_first {α : Type} [DecidableEq α] {a : α} {l : List α} (h : a ∈ l) :
    ∃ s t, l = s ++ a :: t ∧ a ∉ s := by
  induction l with
  | nil => cases h
  | cons x l ih =>
    by_cases hx : x = a
    · subst hx
      exact ⟨[], l, rfl, by simp⟩
    · have h' : a ∈ l := by
        cases h with
        | head => exact absurd rfl hx
        | tail _ h' => exact h'
      obtain ⟨s, t, rfl, hns⟩ := ih h'
      refine ⟨x :: s, t, rfl, ?_⟩
      intro hmem
      rcases List.mem_cons.mp hmem with h1 | h1
      · exact hx h1.symm
      · exact hns h1

theorem stage_zero (n : Nat) (P : Mat) (j k : Nat) (hj : j < n) (hk : k < n) :
    stage n P 0 j k = edge P j k := by
  show initLoop n P zeroMat j k = edge P j k
  rw [initLoop_apply, if_pos ⟨hj, hk⟩]

theorem stage_succ (n : Nat) (P : Mat) (m j k : Nat) (hj : j < n) (hk : k < n) :
    stage n P (m + 1) j k =
      max (stage n P m j k) (min (stage n P m j m) (stage n P m m k)) := by
  show relaxIter n m (stage n P m) j k = _
  rw [relaxIter_apply, if_pos ⟨hj, hk⟩]

theorem stage_succ_row (n : Nat) (P : Mat) (m k : Nat) (hm : m < n) (hk : k < n) :
    stage n P (m + 1) m k = stage n P m m k := by
  rw [stage_succ n P m m k hm hk]
  have : min (stage n P m m m) (stage n P m m k) ≤ stage n P m m k := min_le_right _ _
  omega

theorem stage_ub (n : Nat) (P : Mat) :
    ∀ m, m ≤ n → ∀ L, ∀ p : List Nat, p.length < L → (∀ x ∈ p, x < m) →
      ∀ j k, j < n → k < n → bottleneck P j p k ≤ stage n P m j k := by
  intro m
  induction m with
  | zero =>
    intro _ L p _ hp j k hj hk
    cases p with
    | nil =>
      rw [stage_zero n P j k hj hk]
      exact le_of_eq rfl
    | cons x p => exact absurd (hp x (by simp)) (by omega)
  | succ m ihm =>
    intro hm1 L
    induction L with
    | zero => intro p hL; omega
    | succ L ihL =>
      intro p hL hp j k hj hk
      have hm : m ≤ n := by omega
      have hmn : m < n := by omega
      by_cases hmem : m ∈ p
      · obtain ⟨s, t, rfl, hns⟩ := mem_split_first hmem
        rw [bottleneck_append]
        have hs : bottleneck P j s m ≤ stage n P m j m := by
          apply ihm hm (s.length + 1) s (by omega)
          · intro x hx
            have := hp x (by simp [hx])
            have : x ≠ m := fun h => hns (h ▸ hx)
            omega
          · exact hj
          · exact hmn
        have ht : bottleneck P m t k ≤ stage n P (m + 1) m k := by
          apply ihL t (by simp at hL ⊢; omega)
          · intro x hx; exact hp x (by simp [hx])
          · exact hmn
          · exact hk
        rw [stage_succ_row n P m k hmn hk] at ht
        have hmin : min (bottleneck P j s m) (bottleneck P m t k) ≤
            min (stage n P m j m) (stage n P m m k) := min_le_min hs ht
        rw [stage_succ n P m j k hj hk]
        exact le_trans hmin (le_max_right _ _)
      · have hp' : ∀ x ∈ p, x < m := by
          intro x hx
          have := hp x hx
          have : x ≠ m := fun h => hmem (h ▸ hx)
          omega
        have := ihm hm (p.length + 1) p (by omega) hp' j k hj hk
        rw [stage_succ n P m j k hj hk]
        exact le_trans this (le_max_left _ _)

theorem stage_ex (n : Nat) (P : Mat) :
    ∀ m, m ≤ n → ∀ j k, j < n → k < n →
      ∃ p : List Nat, (∀ x ∈ p, x < m) ∧ bottleneck P j p k = stage n P m j k := by
  intro m
  induction m with
  | zero =>
    intro _ j k hj hk
    refine ⟨[], by simp, ?_⟩
    rw [stage_zero n P j k hj hk]
    rfl
  | succ m ihm =>
    intro hm1 j k hj hk
    have hm : m ≤ n := by omega
    have hmn : m < n := by omega
    rw [stage_succ n P m j k hj hk]
    rcases max_choice (stage n P m j k)
        (min (stage n P m j m) (stage n P m m k)) with hmax | hmax
    · obtain ⟨p, hp, hb⟩ := ihm hm j k hj hk
      exact ⟨p, fun x hx => by have := hp x hx; omega, by rw [hb, hmax]⟩
    · obtain ⟨s, hs, hbs⟩ := ihm hm j m hj hmn
      obtain ⟨t, ht, hbt⟩ := ihm hm m k hmn hk
      refine ⟨s ++ m :: t, ?_, ?_⟩
      · intro x hx
        simp only [List.mem_append, List.mem_cons] at hx
        rcases hx with hx | hx | hx
        · have := hs x hx; omega
        · omega
        · have := ht x hx; omega
      · rw [bottleneck_append, hbs, hbt, hmax]

theorem strengthsList_getD (n : Nat) (P : Mat) (i j : Nat) (hi : i < n) (hj : j < n) :
    (strengthsList n P).getD (i * n + j) 0 = calculatePairwiseStrengths n P i j := by
  have hn : ¬(n = 0) := by omega
  rw [strengthsList, if_neg hn]
  have hlt : i * n + j < n * n := by
    have h1 : i * n + j < (i + 1) * n := by
      rw [Nat.succ_mul]; omega
    have h2 : (i + 1) * n ≤ n * n := Nat.mul_le_mul_right n (by omega)
    omega
  have hdiv : (i * n + j) / n = i := by
    rw [Nat.add_comm, Nat.add_mul_div_right j i (by omega : 0 < n), Nat.div_eq_of_lt hj]
    omega
  have hmod : (i * n + j) % n = j := by
    rw [Nat.add_comm, Nat.add_mul_mod_self_right, Nat.mod_eq_of_lt hj]
  rw [List.getD_eq_getElem?_getD, List.getElem?_map, List.getElem?_range hlt,
    Option.map_some', Option.getD_some, hdiv, hmod]

theorem calculatePairwiseStrengths_eq_stage (n : Nat) (P : Mat) :
    calculatePairwiseStrengths n P = stage n P n := rfl

/-- C1: for every choice count `n` and preference matrix, the strength matrix
produced by `calculatePairwiseStrengths` is empty when `n = 0`, and otherwise
each off-diagonal cell `S[i][j]` is the maximum, over directed paths from `i`
to `j` through vertices `< n`, of the minimum edge weight along the path, where
the edge weight is `M[u][v]` if `M[u][v] > M[v][u]` and `0` otherwise: every
path bottleneck is at most `S[i][j]`, and some path attains it. -/
theorem claim1_strengths_widest_path (n : Nat) (P : Mat) :
    (n = 0 → strengthsList n P = []) ∧
    ∀ i j, i < n → j < n → i ≠ j →
      (∀ p : List Nat, (∀ x ∈ p, x < n) →
          bottleneck P i p j ≤ (strengthsList n P).getD (i * n + j) 0) ∧
        ∃ p : List Nat, (∀ x ∈ p, x < n) ∧
          bottleneck P i p j = (strengthsList n P).getD (i * n + j) 0 := by
  constructor
  · intro h
    rw [strengthsList, if_pos h]
  · intro i j hi hj _
    rw [strengthsList_getD n P i j hi hj, calculatePairwiseStrengths_eq_stage]
    constructor
    · intro p hp
      exact stage_ub n P n (le_refl n) (p.length + 1) p (by omega) hp i j hi hj
    · exact stage_ex n P n (le_refl n) i j hi hj

/-- Witness for C1: the widest-path property instantiated on the concrete
3-choice cyclic matrix `exampleP`, at the pair `(0, 1)`. -/
theorem claim1_strengths_widest_path_witness :
    (∀ p : List Nat, (∀ x ∈ p, x < 3) →
        bottleneck exampleP 0 p 1 ≤ (strengthsList 3 exampleP).getD (0 * 3 + 1) 0) ∧
      ∃ p : List Nat, (∀ x ∈ p, x < 3) ∧
        bottleneck exampleP 0 p 1 = (strengthsList 3 exampleP).getD (0 * 3 + 1) 0 :=
  (claim1_strengths_widest_path 3 exampleP).2 0 1 (by decide) (by decide) (by decide)

/-! ## Theorems: getChoiceIndex and resolution -/

theorem getChoiceIndex_neg_iff {C : Type} [DecidableEq C] (choices : List C) (c : C) :
    getChoiceIndex choices c < 0 ↔ c ∉ choices := by
  induction choices with
  | nil =>
    show (-1 : Int) < 0 ↔ _
    simp
  | cons x rest ih =>
    show (if x = c then (0 : Int)
      else if getChoiceIndex rest c < 0 then -1 else getChoiceIndex rest c + 1) < 0 ↔ _
    by_cases hx : x = c
    · subst hx
      rw [if_pos rfl]
      simp
    · rw [if_neg hx]
      by_cases hr : getChoiceIndex rest c < 0
      · rw [if_pos hr]
        simp only [List.mem_cons, not_or]
        constructor
        · intro _
          exact ⟨fun h => hx h.symm, ih.mp hr⟩
        · intro _
          omega
      · rw [if_neg hr]
        simp only [List.mem_cons, not_or]
        constructor
        · intro habs
          omega
        · intro hand
          exact absurd (ih.mpr hand.2) hr

theorem resolveIndex_eq_none {C : Type} [DecidableEq C] (choices : List C) (c : C) :
    resolveIndex choices c = none ↔ c ∉ choices := by
  rw [resolveIndex]
  by_cases h : getChoiceIndex choices c < 0
  · rw [if_pos h]
    simp [(getChoiceIndex_neg_iff choices c).mp h]
  · rw [if_neg h]
    simp only [reduceCtorEq, false_iff, not_not]
    by_contra hmem
    exact h ((getChoiceIndex_neg_iff choices c).mpr hmem)

/-! ## Theorems: C4 — Vote fails atomically on an unknown choice -/

theorem collectRanks_error {C : Type} [DecidableEq C] (choices : List C) :
    ∀ (b : Ballot C) (acc : List (Int × List Nat)),
      (∃ cr ∈ b, cr.1 ∉ choices) →
      ∃ c, (∃ rk, (c, rk) ∈ b) ∧ c ∉ choices ∧
        collectRanks choices b acc = .error ⟨c⟩ := by
  intro b
  induction b with
  | nil =>
    intro acc h
    obtain ⟨cr, hm, _⟩ := h
    cases hm
  | cons cr rest ih =>
    intro acc h
    obtain ⟨c0, r0⟩ := cr
    by_cases hc : getChoiceIndex choices c0 < 0
    · refine ⟨c0, ⟨r0, by simp⟩, (getChoiceIndex_neg_iff choices c0).mp hc, ?_⟩
      show (if getChoiceIndex choices c0 < 0 then Except.error ⟨c0⟩
        else collectRanks choices rest
          (addToRanks acc r0 (getChoiceIndex choices c0).toNat)) = _
      rw [if_pos hc]
    · have hc0mem : c0 ∈ choices := by
        by_contra hmem
        exact hc ((getChoiceIndex_neg_iff choices c0).mpr hmem)
      have h' : ∃ cr ∈ rest, cr.1 ∉ choices := by
        obtain ⟨cr', hm, hnm⟩ := h
        rcases List.mem_cons.mp hm with h1 | h1
        · rw [h1] at hnm
          exact absurd hc0mem hnm
        · exact ⟨cr', h1, hnm⟩
      obtain ⟨c, ⟨rk, hck⟩, hcn, heq⟩ :=
        ih (addToRanks acc r0 (getChoiceIndex choices c0).toNat) h'
      refine ⟨c, ⟨rk, List.mem_cons_of_mem _ hck⟩, hcn, ?_⟩
      show (if getChoiceIndex choices c0 < 0 then Except.error ⟨c0⟩
        else collectRanks choices rest
          (addToRanks acc r0 (getChoiceIndex choices c0).toNat)) = _
      rw [if_neg hc, heq]

/-- C4: a ballot containing a choice absent from the choice sequence makes
`Vote` return an `UnknownChoiceError` carrying an offending choice of the
ballot and leave every cell of the preference matrix unchanged. -/
theorem claim4_vote_unknown_choice {C : Type} [DecidableEq C] [Inhabited C]
    (M : Mat) (choices : List C) (b : Ballot C)
    (h : ∃ cr ∈ b, cr.1 ∉ choices) :
    ∃ c, (∃ rk, (c, rk) ∈ b) ∧ c ∉ choices ∧
      (vote M choices b).1 = Except.error ⟨c⟩ ∧
      (vote M choices b).2 = M := by
  obtain ⟨c, hck, hcn, heq⟩ := collectRanks_error choices b [] h
  refine ⟨c, hck, hcn, ?_⟩
  have hbr : ballotRanks choices b = Except.error ⟨c⟩ := by
    rw [ballotRanks, heq]
  rw [vote, hbr]
  exact ⟨rfl, rfl⟩

/-- Witness for C4: concrete ballot `[(1, 1)]` over the single choice `[0]`. -/
theorem claim4_vote_unknown_choice_witness :
    ∃ c, (∃ rk, (c, rk) ∈ ([((1 : Nat), (1 : Int))] : Ballot Nat)) ∧ c ∉ [0] ∧
      (vote zeroMat [0] [((1 : Nat), (1 : Int))]).1 = Except.error ⟨c⟩ ∧
      (vote zeroMat [0] [((1 : Nat), (1 : Int))]).2 = zeroMat :=
  claim4_vote_unknown_choice zeroMat [0] [((1 : Nat), (1 : Int))] (by decide)

/-! ## Theorems: C6 — Unvote never fails and skips absent choices -/

theorem foldl_ext {A B : Type} (g1 g2 : B → A → B) :
    ∀ (l : List A) (M : B), (∀ M x, x ∈ l → g1 M x = g2 M x) →
      l.foldl g1 M = l.foldl g2 M := by
  intro l
  induction l with
  | nil => intro M _; rfl
  | cons x rest ih =>
    intro M h
    rw [List.foldl_cons, List.foldl_cons, h M x (by simp)]
    exact ih _ fun M' y hy => h M' y (by simp [hy])

theorem flatMap_ext {A B : Type} (g1 g2 : A → List B) :
    ∀ l : List A, (∀ x ∈ l, g1 x = g2 x) → l.flatMap g1 = l.flatMap g2 := by
  intro l
  induction l with
  | nil => intro _; rfl
  | cons x rest ih =>
    intro h
    rw [List.flatMap_cons, List.flatMap_cons, h x (by simp), ih fun y hy => h y (by simp [hy])]

theorem foldl_filter_resolve {C : Type} [DecidableEq C] (choices : List C)
    (f : Nat → Mat → Mat) :
    ∀ (tier : List C) (M : Mat),
      (tier.filter (fun c => decide (c ∈ choices))).foldl
          (fun M c => match resolveIndex choices c with
            | none => M
            | some i => f i M) M
        = tier.foldl
          (fun M c => match resolveIndex choices c with
            | none => M
            | some i => f i M) M := by
  intro tier
  induction tier with
  | nil => intro M; rfl
  | cons c rest ih =>
    intro M
    by_cases hm : c ∈ choices
    · rw [List.filter_cons, if_pos (by simpa using hm), List.foldl_cons, List.foldl_cons, ih]
    · rw [List.filter_cons, if_neg (by simpa using hm), List.foldl_cons, ih]
      have hn : resolveIndex choices c = none := (resolveIndex_eq_none choices c).mpr hm
      have : (match resolveIndex choices c with
          | none => M
          | some i => f i M) = M := by
        rw [hn]
      rw [this]

theorem resolveTier_filter {C : Type} [DecidableEq C] (choices : List C) (tier : List C) :
    resolveTier choices (tier.filter (fun c => decide (c ∈ choices)))
      = resolveTier choices tier := by
  induction tier with
  | nil => rfl
  | cons c rest ih =>
    show List.filterMap (resolveIndex choices) (List.filter _ (c :: rest))
      = List.filterMap (resolveIndex choices) (c :: rest)
    rw [List.filter_cons, List.filterMap_cons]
    by_cases hm : c ∈ choices
    · rw [if_pos (by simpa using hm), List.filterMap_cons]
      cases hres : resolveIndex choices c with
      | none => exact ih
      | some i => exact congrArg (List.cons i) ih
    · rw [if_neg (by simpa using hm)]
      have hn : resolveIndex choices c = none := (resolveIndex_eq_none choices c).mpr hm
      rw [hn]
      exact ih

theorem decPairsTier_filter {C : Type} [DecidableEq C] (choices : List C)
    (rest : List (List C)) (i : Nat) (M : Mat) :
    decPairsTier choices (rest.map (fun tier => tier.filter (fun c => decide (c ∈ choices)))) i M
      = decPairsTier choices rest i M := by
  rw [decPairsTier, decPairsTier, List.foldl_map]
  exact foldl_ext _ _ rest M fun M' t _ =>
    foldl_filter_resolve choices (fun j M => addPref M i j (-1)) t M'

theorem decPairs_filter {C : Type} [DecidableEq C] (choices : List C) :
    ∀ (r : Record C) (M : Mat),
      decPairs choices (filterRecord choices r) M = decPairs choices r M := by
  intro r
  induction r with
  | nil => intro M; rfl
  | cons tier rest ih =>
    intro M
    show decPairs choices
        (List.filter (fun c => decide (c ∈ choices)) tier :: filterRecord choices rest) M = _
    rw [decPairs, decPairs]
    have h1 : List.foldl (fun M c1 =>
          match resolveIndex choices c1 with
          | none => M
          | some i => decPairsTier choices (filterRecord choices rest) i M) M
          (List.filter (fun c => decide (c ∈ choices)) tier)
        = List.foldl (fun M c1 =>
          match resolveIndex choices c1 with
          | none => M
          | some i => decPairsTier choices (filterRecord choices rest) i M) M tier :=
      foldl_filter_resolve choices
        (fun i M => decPairsTier choices (filterRecord choices rest) i M) tier M
    have h2 : List.foldl (fun M c1 =>
          match resolveIndex choices c1 with
          | none => M
          | some i => decPairsTier choices (filterRecord choices rest) i M) M tier
        = List.foldl (fun M c1 =>
          match resolveIndex choices c1 with
          | none => M
          | some i => decPairsTier choices rest i M) M tier := by
      apply foldl_ext
      intro M' c _
      cases hres : resolveIndex choices c with
      | none => rfl
      | some i => exact decPairsTier_filter choices rest i M'
    rw [h1, h2, ih]

theorem decDiag_filter {C : Type} [DecidableEq C] (choices : List C)
    (tiers : List (List C)) (M : Mat) :
    decDiag choices (tiers.map (fun tier => tier.filter (fun c => decide (c ∈ choices)))) M
      = decDiag choices tiers M := by
  rw [decDiag, decDiag, List.foldl_map]
  exact foldl_ext _ _ tiers M fun M' t _ =>
    foldl_filter_resolve choices (fun i M => addPref M i i (-1)) t M'

/-- C6: `Unvote` always returns a nil error, and every choice of the record
that is absent from the current choice sequence is silently skipped: removing
those choices from the record does not change the resulting matrix. -/
theorem claim6_unvote_never_fails {C : Type} [DecidableEq C]
    (M : Mat) (choices : List C) (r : Record C) :
    (unvote M choices r).1 = none ∧
      (unvote M choices r).2 = (unvote M choices (filterRecord choices r)).2 := by
  constructor
  · rw [unvote]
    by_cases h : r.length = 0
    · rw [if_pos h]
    · rw [if_neg h]
  · have hlenf : (filterRecord choices r).length = r.length := by
      rw [filterRecord, List.length_map]
    by_cases h : r.length = 0
    · rw [unvote, unvote, if_pos h, if_pos (by rw [hlenf]; exact h)]
    · rw [unvote, unvote, if_neg h, if_neg (by rw [hlenf]; exact h)]
      show decUnknown _ _ _ _ = decUnknown _ _ _ _
      have hdrop : (filterRecord choices r).dropLast
          = r.dropLast.map (fun tier => tier.filter (fun c => decide (c ∈ choices))) := by
        rw [filterRecord, List.map_dropLast]
      have hranked : (filterRecord choices r).dropLast.flatMap (resolveTier choices)
          = r.dropLast.flatMap (resolveTier choices) := by
        rw [hdrop, List.flatMap_map]
        exact flatMap_ext _ _ r.dropLast fun t _ => resolveTier_filter choices t
      have hlast : (filterRecord choices r).getD ((filterRecord choices r).length - 1) []
          = (r.getD (r.length - 1) []).filter (fun c => decide (c ∈ choices)) := by
        rw [hlenf, filterRecord]
        have := List.getD_map r ([] : List C)
          (f := fun tier => tier.filter (fun c => decide (c ∈ choices))) (n := r.length - 1)
        simpa using this
      rw [hranked, hlast, resolveTier_filter]
      have hM1 : decPairs choices (filterRecord choices r) M = decPairs choices r M :=
        decPairs_filter choices r M
      rw [hM1, hdrop, decDiag_filter]

/-! ## Theorems: C2 — Vote followed by Unvote is not always a no-op -/

/-- C2 fails on the code: over the single choice `0`, voting the fully-ranked
ballot `{0 ↦ 1}` writes `M[0][0] = 1` and yields the record `[[0]]`, but
unvoting that record does not restore the matrix: the diagonal cell stays `1`.
This contradicts the spec's round-trip law (and the package documentation of
Unvote), so the code is the faulty side. -/
theorem claim2_vote_unvote_residue :
    (vote zeroMat [0] [((0 : Nat), (1 : Int))]).1 = Except.ok [[0]] ∧
      (unvote (vote zeroMat [0] [((0 : Nat), (1 : Int))]).2 [0] [[0]]).2 0 0 = 1 ∧
      zeroMat 0 0 = 0 := by
  refine ⟨by rfl, by decide, rfl⟩

/-! ## Theorems: C3 — SetChoices preserves cells of surviving choice pairs -/

theorem getChoiceIndex_getD {C : Type} [DecidableEq C] [Inhabited C] :
    ∀ (l : List C), l.Nodup → ∀ k, k < l.length →
      getChoiceIndex l (l.getD k default) = k := by
  intro l
  induction l with
  | nil => intro _ k hk; simp at hk
  | cons x rest ih =>
    intro hnd k hk
    rcases List.nodup_cons.mp hnd with ⟨hx, hrest⟩
    cases k with
    | zero =>
      show (if x = (x :: rest).getD 0 default then (0 : Int)
        else if getChoiceIndex rest ((x :: rest).getD 0 default) < 0 then -1
        else getChoiceIndex rest ((x :: rest).getD 0 default) + 1) = 0
      rw [if_pos (show x = (x :: rest).getD 0 default from rfl)]
    | succ k =>
      have hk' : k < rest.length := by simpa using hk
      have hgd : (x :: rest).getD (k + 1) default = rest.getD k default := rfl
      have hmem : rest.getD k default ∈ rest := by
        rw [List.getD_eq_getElem rest default hk']
        exact List.getElem_mem hk'
      have hxne : ¬(x = (x :: rest).getD (k + 1) default) := by
        rw [hgd]
        intro h
        exact hx (h ▸ hmem)
      show (if x = (x :: rest).getD (k + 1) default then (0 : Int)
        else if getChoiceIndex rest ((x :: rest).getD (k + 1) default) < 0 then -1
        else getChoiceIndex rest ((x :: rest).getD (k + 1) default) + 1) = k + 1
      rw [if_neg hxne, hgd, ih hrest k hk']
      rw [if_neg (show ¬((k : Int) < 0) by omega)]

theorem getD_inj_of_nodup {C : Type} [DecidableEq C] [Inhabited C]
    (l : List C) (hnd : l.Nodup) (a b : Nat) (ha : a < l.length) (hb : b < l.length)
    (he : l.getD a default = l.getD b default) : a = b := by
  rw [List.getD_eq_getElem l default ha, List.getD_eq_getElem l default hb] at he
  exact (List.Nodup.getElem_inj_iff hnd).mp he

theorem setChoices_getD_cell {C : Type} [DecidableEq C] [Inhabited C]
    (preferences : Mat) (current updated : List C) (i j : Nat)
    (hi : i < updated.length) (hj : j < updated.length) :
    (setChoices preferences current updated).getD (i * updated.length + j) 0
      = setChoicesCell preferences current updated i j := by
  have hn : 0 < updated.length := by omega
  have hlt : i * updated.length + j < updated.length * updated.length := by
    have h1 : i * updated.length + j < (i + 1) * updated.length := by
      rw [Nat.succ_mul]; omega
    have h2 : (i + 1) * updated.length ≤ updated.length * updated.length :=
      Nat.mul_le_mul_right _ (by omega)
    omega
  have hdiv : (i * updated.length + j) / updated.length = i := by
    rw [Nat.add_comm, Nat.add_mul_div_right j i hn, Nat.div_eq_of_lt hj]
    omega
  have hmod : (i * updated.length + j) % updated.length = j := by
    rw [Nat.add_comm, Nat.add_mul_mod_self_right, Nat.mod_eq_of_lt hj]
  rw [setChoices, List.getD_eq_getElem?_getD, List.getElem?_map, List.getElem?_range hlt,
    Option.map_some', Option.getD_some, hdiv, hmod]

/-- C3: with unique current and updated choice sequences, `SetChoices` returns
a matrix sized for the updated sequence, and every cell whose two choices both
occur in the current sequence (at positions `iOld`, `jOld`) receives the old
cell `M[iOld][jOld]`. -/
theorem claim3_setChoices_preserves {C : Type} [DecidableEq C] [Inhabited C]
    (preferences : Mat) (current updated : List C)
    (hcu : current.Nodup) (hup : updated.Nodup)
    (i j iOld jOld : Nat)
    (hi : i < updated.length) (hj : j < updated.length)
    (hio : iOld < current.length) (hjo : jOld < current.length)
    (hvi : current.getD iOld default = updated.getD i default)
    (hvj : current.getD jOld default = updated.getD j default) :
    (setChoices preferences current updated).length = updated.length * updated.length ∧
      (setChoices preferences current updated).getD (i * updated.length + j) 0
        = preferences iOld jOld := by
  constructor
  · rw [setChoices, List.length_map, List.length_range]
  · rw [setChoices_getD_cell preferences current updated i j hi hj, setChoicesCell]
    have hgi : getChoiceIndex current (updated.getD i default) = iOld := by
      rw [← hvi]
      exact getChoiceIndex_getD current hcu iOld hio
    have hgj : getChoiceIndex current (updated.getD j default) = jOld := by
      rw [← hvj]
      exact getChoiceIndex_getD current hcu jOld hjo
    by_cases hfast : i < current.length
        ∧ updated.getD i default = current.getD i default
        ∧ j < current.length ∧ updated.getD j default = current.getD j default
    · rw [if_pos hfast]
      obtain ⟨hiu, hei, hju, hej⟩ := hfast
      have hieq : iOld = i :=
        getD_inj_of_nodup current hcu iOld i hio hiu (by rw [hvi, hei])
      have hjeq : jOld = j :=
        getD_inj_of_nodup current hcu jOld j hjo hju (by rw [hvj, hej])
      rw [hieq, hjeq]
    · rw [if_neg hfast, hgi, hgj, if_pos (by omega), if_pos (by omega)]
      simp

/-- Witness for C3: current `[10, 20]`, updated `[20, 30, 10]`; the cell for
the surviving pair (10, 20) at new positions (2, 0) equals the old cell (0, 1). -/
theorem claim3_setChoices_preserves_witness :
    (setChoices (fun i j => (2 : Int) * Int.ofNat i + Int.ofNat j) [10, 20]
        ([20, 30, 10] : List Nat)).length = 3 * 3 ∧
      (setChoices (fun i j => (2 : Int) * Int.ofNat i + Int.ofNat j) [10, 20]
        ([20, 30, 10] : List Nat)).getD (2 * 3 + 0) 0
        = (fun i j => (2 : Int) * Int.ofNat i + Int.ofNat j) 0 1 := by
  have h := claim3_setChoices_preserves
    (fun i j => (2 : Int) * Int.ofNat i + Int.ofNat j) [10, 20] ([20, 30, 10] : List Nat)
    (by decide) (by decide) 2 0 0 1
    (by decide) (by decide) (by decide) (by decide) (by decide) (by decide)
  simpa using h

/-! ## Theorems: C5, C8, C10 — result derivation -/

theorem calculateResults_fst {C : Type} [DecidableEq C] [Inhabited C]
    (choices : List C) (S : Mat) :
    (calculateResults choices S).1 = (resultsUnsorted choices S).insertionSort resultLE := rfl

theorem calculateResults_snd {C : Type} [DecidableEq C] [Inhabited C]
    (choices : List C) (S : Mat) :
    (calculateResults choices S).2
      = match (resultsUnsorted choices S).insertionSort resultLE with
        | r0 :: r1 :: _ => decide (r0.Wins = r1.Wins)
        | _ => false := rfl

theorem results_perm {C : Type} [DecidableEq C] [Inhabited C]
    (choices : List C) (S : Mat) :
    ((calculateResults choices S).1).Perm (resultsUnsorted choices S) :=
  List.perm_insertionSort resultLE (resultsUnsorted choices S)

theorem results_sorted {C : Type} [DecidableEq C] [Inhabited C]
    (choices : List C) (S : Mat) :
    List.Pairwise resultLE (calculateResults choices S).1 :=
  List.sorted_insertionSort resultLE (resultsUnsorted choices S)

theorem resultsUnsorted_map_index {C : Type} [Inhabited C]
    (choices : List C) (S : Mat) :
    (resultsUnsorted choices S).map (fun r => r.Index) = List.range choices.length := by
  rw [resultsUnsorted, List.map_map]
  show List.map (fun i => i) (List.range choices.length) = List.range choices.length
  simp

theorem resultLE_strict {C : Type} (a b : Result C)
    (h : resultLE a b) (hne : a.Index ≠ b.Index) :
    a.Wins > b.Wins ∨ (a.Wins = b.Wins ∧ (a.Strength > b.Strength ∨
      (a.Strength = b.Strength ∧ a.Index < b.Index))) := by
  unfold resultLE resultLess at h
  split_ifs at h <;> omega

theorem resultLE_of_eq_lt {C : Type} (a b : Result C)
    (hw : a.Wins = b.Wins) (hs : a.Strength = b.Strength) (hi : a.Index < b.Index) :
    resultLE a b := by
  unfold resultLE resultLess
  intro h
  split_ifs at h <;> omega

/-- C5: every Result carries the wins count, strength sum and advantage sum of
its choice against the given strength matrix; the list is sorted descending by
wins, then strength, then ascending by original index; and for at least two
choices the tie flag is true exactly when the two leading Results tie on wins. -/
theorem claim5_calculateResults_spec {C : Type} [DecidableEq C] [Inhabited C]
    (choices : List C) (S : Mat) :
    (∀ r ∈ (calculateResults choices S).1,
        r.Index < choices.length ∧
        r.Choice = choices.getD r.Index default ∧
        r.Wins = (winners choices.length S r.Index).length ∧
        r.Strength = ((winners choices.length S r.Index).map fun j => S r.Index j).sum ∧
        r.Advantage
          = ((winners choices.length S r.Index).map fun j => S r.Index j - S j r.Index).sum) ∧
      List.Pairwise (fun a b : Result C =>
        a.Wins > b.Wins ∨ (a.Wins = b.Wins ∧ (a.Strength > b.Strength ∨
          (a.Strength = b.Strength ∧ a.Index < b.Index)))) (calculateResults choices S).1 ∧
      (2 ≤ choices.length →
        ∃ r0 r1 rest, (calculateResults choices S).1 = r0 :: r1 :: rest ∧
          ((calculateResults choices S).2 = true ↔ r0.Wins = r1.Wins)) := by
  refine ⟨?_, ?_, ?_⟩
  · intro r hr
    have hr' : r ∈ resultsUnsorted choices S := (results_perm choices S).mem_iff.mp hr
    rw [resultsUnsorted] at hr'
    obtain ⟨i, hi, hri⟩ := List.mem_map.mp hr'
    have hi' : i < choices.length := List.mem_range.mp hi
    rw [← hri]
    exact ⟨hi', rfl, rfl, rfl, rfl⟩
  · have h1 := results_sorted choices S
    have hnodup : List.Pairwise (fun a b : Result C => a.Index ≠ b.Index)
        (calculateResults choices S).1 := by
      have hperm := (results_perm choices S).map (fun r => r.Index)
      have hnd : ((calculateResults choices S).1.map (fun r => r.Index)).Nodup := by
        rw [hperm.nodup_iff, resultsUnsorted_map_index]
        exact List.nodup_range _
      exact List.pairwise_map.mp hnd
    exact (h1.and hnodup).imp (fun hab => resultLE_strict _ _ hab.1 hab.2)
  · intro h2
    have hlen : (calculateResults choices S).1.length = choices.length := by
      rw [(results_perm choices S).length_eq, resultsUnsorted, List.length_map,
        List.length_range]
    obtain ⟨r0, r1, rest, hshape⟩ :
        ∃ r0 r1 rest, (calculateResults choices S).1 = r0 :: r1 :: rest := by
      cases hl : (calculateResults choices S).1 with
      | nil => rw [hl] at hlen; simp at hlen; omega
      | cons r0 tl =>
        cases tl with
        | nil => rw [hl] at hlen; simp at hlen; omega
        | cons r1 rest => exact ⟨r0, r1, rest, rfl⟩
    refine ⟨r0, r1, rest, hshape, ?_⟩
    have hs : (resultsUnsorted choices S).insertionSort resultLE = r0 :: r1 :: rest := by
      rw [← calculateResults_fst choices S]
      exact hshape
    rw [calculateResults_snd, hs]
    simp

/-- C10: the Results list is a permutation of the choice sequence — it has one
entry per choice, whose `Index` is the choice's position in the sequence. -/
theorem claim10_results_permutation {C : Type} [DecidableEq C] [Inhabited C]
    (choices : List C) (S : Mat) :
    (calculateResults choices S).1.length = choices.length ∧
      ((calculateResults choices S).1.map (fun r => (r.Index, r.Choice))).Perm
        ((List.range choices.length).map (fun i => (i, choices.getD i default))) := by
  constructor
  · rw [(results_perm choices S).length_eq, resultsUnsorted, List.length_map,
      List.length_range]
  · have h := (results_perm choices S).map (fun r => (r.Index, r.Choice))
    have h2 : (resultsUnsorted choices S).map (fun r => (r.Index, r.Choice))
        = (List.range choices.length).map (fun i => (i, choices.getD i default)) := by
      rw [resultsUnsorted, List.map_map]
      rfl
    rw [h2] at h
    exact h

/-- Witness for C5: the tie clause instantiated on two choices with the zero
strength matrix. -/
theorem claim5_calculateResults_spec_witness :
    ∃ r0 r1 rest, (calculateResults ([5, 7] : List Nat) zeroMat).1 = r0 :: r1 :: rest ∧
      ((calculateResults ([5, 7] : List Nat) zeroMat).2 = true ↔ r0.Wins = r1.Wins) :=
  (claim5_calculateResults_spec ([5, 7] : List Nat) zeroMat).2.2 (by decide)

theorem replicate_getD_zero : ∀ (m k : Nat), (List.replicate m (0 : Int)).getD k 0 = 0 := by
  intro m
  induction m with
  | zero => intro k; cases k <;> rfl
  | succ m ih =>
    intro k
    cases k with
    | zero => rfl
    | succ k => exact ih k

theorem prefsOf_NewPreferences (n : Nat) : prefsOf (NewPreferences n) n = zeroMat := by
  funext i j
  rw [prefsOf, NewPreferences, replicate_getD_zero]
  rfl

theorem calculatePairwiseStrengths_zero (n : Nat) :
    calculatePairwiseStrengths n zeroMat = zeroMat := by
  have h0 : initLoop n zeroMat zeroMat = zeroMat := by
    funext r c
    rw [initLoop_apply]
    unfold edge zeroMat
    simp
  show relaxLoop n (initLoop n zeroMat zeroMat) = zeroMat
  rw [h0]
  have hiter : ∀ m, relaxAux n zeroMat m = zeroMat := by
    intro m
    induction m with
    | zero => rfl
    | succ m ih =>
      show relaxIter n m (relaxAux n zeroMat m) = zeroMat
      rw [ih]
      funext r c
      rw [relaxIter_apply]
      unfold zeroMat
      simp
  exact hiter n

theorem winners_zero (n i : Nat) : winners n zeroMat i = [] := by
  rw [winners, List.filter_eq_nil_iff]
  intro j _
  simp [zeroMat]

theorem resultsUnsorted_zero {C : Type} [Inhabited C] (choices : List C) :
    resultsUnsorted choices zeroMat
      = (List.range choices.length).map
          (fun i => (⟨choices.getD i default, i, 0, 0, 0⟩ : Result C)) := by
  rw [resultsUnsorted]
  apply List.map_congr_left
  intro i _
  rw [resultFor, winners_zero]
  rfl

theorem results_zero_sorted {C : Type} [Inhabited C] (choices : List C) :
    List.Pairwise resultLE
      ((List.range choices.length).map
        (fun i => (⟨choices.getD i default, i, 0, 0, 0⟩ : Result C))) := by
  rw [List.pairwise_map]
  refine (List.pairwise_lt_range _).imp ?_
  intro a b hab
  exact resultLE_of_eq_lt _ _ rfl rfl hab

/-- C8: `NewPreferences` returns `n²` zero cells, and `Compute` on this fresh
matrix yields one zero-wins Result per choice in original index order, with
the tie flag set exactly when there are at least two choices. -/
theorem claim8_fresh_preferences {C : Type} [DecidableEq C] [Inhabited C]
    (n : Nat) (choices : List C) (hlen : choices.length = n) :
    (∀ x ∈ NewPreferences n, x = 0) ∧
      (NewPreferences n).length = n * n ∧
      (compute (prefsOf (NewPreferences n) n) choices).1
        = (List.range n).map (fun i => (⟨choices.getD i default, i, 0, 0, 0⟩ : Result C)) ∧
      ((compute (prefsOf (NewPreferences n) n) choices).2 = true ↔ 2 ≤ n) := by
  subst hlen
  have hsorted : (resultsUnsorted choices zeroMat).insertionSort resultLE
      = (List.range choices.length).map
          (fun i => (⟨choices.getD i default, i, 0, 0, 0⟩ : Result C)) := by
    rw [resultsUnsorted_zero]
    exact List.Sorted.insertionSort_eq (results_zero_sorted choices)
  have hcomp : compute (prefsOf (NewPreferences choices.length) choices.length) choices
      = calculateResults choices zeroMat := by
    rw [compute, prefsOf_NewPreferences, calculatePairwiseStrengths_zero]
  refine ⟨fun x hx => List.eq_of_mem_replicate hx, by
      rw [NewPreferences, List.length_replicate], ?_, ?_⟩
  · rw [hcomp, calculateResults_fst, hsorted]
  · rw [hcomp, calculateResults_snd, hsorted]
    cases hn : choices.length with
    | zero => simp
    | succ m =>
      cases m with
      | zero =>
        rw [show List.range 1 = [0] from rfl]
        simp
      | succ k =>
        rw [List.range_succ_eq_map, List.range_succ_eq_map]
        simp only [List.map_cons]
        simp

/-- Witness for C8: two concrete choices. -/
theorem claim8_fresh_preferences_witness :
    (∀ x ∈ NewPreferences 2, x = 0) ∧
      (NewPreferences 2).length = 2 * 2 ∧
      (compute (prefsOf (NewPreferences 2) 2) ([5, 7] : List Nat)).1
        = (List.range 2).map (fun i => (⟨([5, 7] : List Nat).getD i default, i, 0, 0, 0⟩ :
            Result Nat)) ∧
      ((compute (prefsOf (NewPreferences 2) 2) ([5, 7] : List Nat)).2 = true ↔ 2 ≤ 2) :=
  claim8_fresh_preferences 2 ([5, 7] : List Nat) (by decide)

/-! ## Theorems: C7 — the duels iterator -/

theorem duelsCall_eq_pairsFrom {C : Type} [DecidableEq C] [Inhabited C]
    (choices : List C) (S : Mat) :
    ∀ (k : Nat) (st : Nat × Nat),
      duelsCall choices S st k = ((pairsFrom choices.length st)[k]?).map (mkDuel choices S) := by
  intro k
  induction k with
  | zero =>
    intro st
    show (duelsStep choices S st).1 = _
    rw [duelsStep, pairsFrom]
    by_cases hterm : choices.length ≤ st.1 ∨ choices.length ≤ st.2
    · rw [if_pos hterm, if_pos hterm]
      rfl
    · rw [if_neg hterm, if_neg hterm]
      by_cases hcol : choices.length ≤ st.2 + 1
      · rw [if_pos hcol, if_pos hcol, List.getElem?_cons_zero]
        rfl
      · rw [if_neg hcol, if_neg hcol, List.getElem?_cons_zero]
        rfl
  | succ k ih =>
    intro st
    show duelsCall choices S (duelsStep choices S st).2 k = _
    rw [duelsStep, pairsFrom]
    by_cases hterm : choices.length ≤ st.1 ∨ choices.length ≤ st.2
    · rw [if_pos hterm, if_pos hterm]
      show duelsCall choices S st k = _
      rw [ih st, pairsFrom, if_pos hterm]
      simp
    · rw [if_neg hterm, if_neg hterm]
      by_cases hcol : choices.length ≤ st.2 + 1
      · rw [if_pos hcol, if_pos hcol, List.getElem?_cons_succ]
        exact ih _
      · rw [if_neg hcol, if_neg hcol, List.getElem?_cons_succ]
        exact ih _

theorem pairsFrom_row (n : Nat) :
    ∀ (d i j : Nat), n - j = d → i < n → j < n →
      pairsFrom n (i, j)
        = (List.range' j (n - j)).map (fun x => (i, x)) ++ pairsFrom n (i + 1, i + 2) := by
  intro d
  induction d with
  | zero => intro i j hd hi hj; omega
  | succ d ih =>
    intro i j hd hi hj
    rw [pairsFrom]
    rw [if_neg (by simp; omega)]
    by_cases hcol : n ≤ j + 1
    · rw [if_pos (by simpa using hcol)]
      rw [show n - j = 1 by omega, List.range'_one]
      have hterm : pairsFrom n (i, j + 1) = [] := by
        rw [pairsFrom, if_pos (by simp; omega)]
      rfl
    · rw [if_neg (by simpa using hcol)]
      rw [ih i (j + 1) (by omega) hi (by omega)]
      have hr : List.range' j (n - j) = j :: List.range' (j + 1) (n - (j + 1)) := by
        rw [show n - j = (n - (j + 1)) + 1 by omega]
        rw [List.range'_succ]
      rw [hr]
      rfl

theorem pairsFrom_rows (n : Nat) :
    ∀ (d i : Nat), n - i = d →
      pairsFrom n (i, i + 1)
        = (List.range' i (n - i)).flatMap
            (fun r => (List.range' (r + 1) (n - (r + 1))).map (fun j => (r, j))) := by
  intro d
  induction d with
  | zero =>
    intro i hd
    rw [show n - i = 0 from hd, List.range'_zero]
    rw [pairsFrom, if_pos (by simp; omega)]
    rfl
  | succ d ih =>
    intro i hd
    have hi : i < n := by omega
    have hr : List.range' i (n - i) = i :: List.range' (i + 1) (n - (i + 1)) := by
      rw [show n - i = (n - (i + 1)) + 1 by omega]
      rw [List.range'_succ]
    rw [hr, List.flatMap_cons, ← ih (i + 1) (by omega)]
    by_cases hcol : i + 1 < n
    · exact pairsFrom_row n (n - (i + 1)) i (i + 1) rfl hi hcol
    · have hin : i + 1 = n := by omega
      have h1 : pairsFrom n (i, i + 1) = [] := by
        rw [pairsFrom, if_pos (by simp; omega)]
      have h2 : pairsFrom n (i + 1, i + 2) = [] := by
        rw [pairsFrom, if_pos (by simp; omega)]
      rw [h1, h2, show n - (i + 1) = 0 by omega, List.range'_zero]
      rfl

theorem duelPairs_eq_pairsFrom (n : Nat) : duelPairs n = pairsFrom n (0, 1) := by
  rw [duelPairs, pairsFrom_rows n n 0 (by omega), List.range_eq_range']
  rw [show n - 0 = n from rfl]

theorem sum_map_add_one (f : Nat → Nat) :
    ∀ l : List Nat, (l.map (fun x => f x + 1)).sum = (l.map f).sum + l.length := by
  intro l
  induction l with
  | nil => rfl
  | cons x rest ih =>
    rw [List.map_cons, List.map_cons, List.sum_cons, List.sum_cons, ih, List.length_cons]
    omega

theorem duelPairs_length_twice (n : Nat) : 2 * (duelPairs n).length = n * (n - 1) := by
  induction n with
  | zero => rfl
  | succ m ih =>
    have hlen : ∀ q, (duelPairs q).length
        = ((List.range q).map (fun i => q - (i + 1))).sum := by
      intro q
      rw [duelPairs, List.length_flatMap]
      congr 1
      apply List.map_congr_left
      intro i _
      show ((List.range' (i + 1) (q - (i + 1))).map (fun j => (i, j))).length = q - (i + 1)
      rw [List.length_map, List.length_range']
    rw [hlen] at ih ⊢
    rw [List.range_succ, List.map_append, List.sum_append]
    have hcongr : (List.range m).map (fun i => m + 1 - (i + 1))
        = (List.range m).map (fun i => (m - (i + 1)) + 1) := by
      apply List.map_congr_left
      intro i hi
      have : i < m := List.mem_range.mp hi
      omega
    rw [hcongr, sum_map_add_one, List.length_range]
    have htail : ((([m] : List Nat)).map (fun i => m + 1 - (i + 1))).sum = 0 := by
      simp
    rw [htail]
    have hmul : (m + 1) * (m + 1 - 1) = m * (m - 1) + 2 * m := by
      cases m with
      | zero => rfl
      | succ t =>
        simp only [Nat.add_sub_cancel, Nat.succ_sub_one]
        ring
    omega

theorem duelPairs_length (n : Nat) : (duelPairs n).length = n * (n - 1) / 2 := by
  have := duelPairs_length_twice n
  omega

/-- C7: starting from state (0, 1), the k-th call of the duels iterator yields
the Duel for the k-th pair of `duelPairs` (all pairs `i < j` in row-major
order, with Left strength `S[i][j]` and Right strength `S[j][i]`), hence nil
for every `k` past the `n*(n-1)/2` available pairs; and `Duel.Outcome` returns
the strictly stronger side as winner, or no winner on equal strengths. -/
theorem claim7_duels_iterator {C : Type} [DecidableEq C] [Inhabited C]
    (choices : List C) (S : Mat) :
    (∀ k, duelsAt choices S k
        = ((duelPairs choices.length)[k]?).map (mkDuel choices S)) ∧
      (duelPairs choices.length).length
        = choices.length * (choices.length - 1) / 2 ∧
      (∀ d : Duel C,
        (d.Left.Strength > d.Right.Strength →
          duelOutcome d = (some d.Left, some d.Right)) ∧
        (d.Right.Strength > d.Left.Strength →
          duelOutcome d = (some d.Right, some d.Left)) ∧
        (d.Left.Strength = d.Right.Strength → duelOutcome d = (none, none))) := by
  refine ⟨?_, duelPairs_length choices.length, ?_⟩
  · intro k
    rw [duelsAt, duelsCall_eq_pairsFrom choices S k (0, 1), duelPairs_eq_pairsFrom]
  · intro d
    refine ⟨?_, ?_, ?_⟩
    · intro h
      rw [duelOutcome, if_pos h]
    · intro h
      rw [duelOutcome, if_neg (by omega), if_pos h]
    · intro h
      rw [duelOutcome, if_neg (by omega), if_neg (by omega)]

/-- Witness for C7: the outcome clause on the concrete duel of pair (0, 1)
over two choices and the cyclic example matrix, whose Left side is stronger. -/
theorem claim7_duels_iterator_witness :
    duelOutcome (mkDuel ([5, 7] : List Nat) exampleP (0, 1))
      = (some (mkDuel ([5, 7] : List Nat) exampleP (0, 1)).Left,
          some (mkDuel ([5, 7] : List Nat) exampleP (0, 1)).Right) :=
  ((claim7_duels_iterator ([5, 7] : List Nat) exampleP).2.2 _).1 (by decide)

/-! ## Theorems: C9 — the strength computation never writes the preferences -/

theorem initRowAuxS_eq (i : Nat) (st : Mat × Mat) :
    ∀ m, initRowAuxS i st m = (st.1, initRowAux st.1 i st.2 m) := by
  intro m
  induction m with
  | zero => rfl
  | succ m ih =>
    show initCellS (initRowAuxS i st m) i m = _
    rw [ih, initCellS, updStr]
    show (if st.1 i m > st.1 m i then _ else _) = (st.1, initCell st.1 (initRowAux st.1 i st.2 m) i m)
    rw [initCell]
    by_cases h : st.1 i m > st.1 m i
    · rw [if_pos h, if_pos h]
    · rw [if_neg h, if_neg h]

theorem initAuxS_eq (n : Nat) (st : Mat × Mat) :
    ∀ m, initAuxS n st m = (st.1, initAux st.1 n st.2 m) := by
  intro m
  induction m with
  | zero => rfl
  | succ m ih =>
    show initRowAuxS m (initAuxS n st m) n = _
    rw [ih, initRowAuxS_eq]
    rfl

theorem relaxCellsAuxS_eq (i : Nat) (jip : Int) (j : Nat) (st : Mat × Mat) :
    ∀ m, relaxCellsAuxS i jip j st m = (st.1, relaxCellsAux i jip j st.2 m) := by
  intro m
  induction m with
  | zero => rfl
  | succ m ih =>
    show (if (relaxCellsAuxS i jip j st m).2 j m ≠ _ then _ else _) = _
    rw [ih]
    show (if relaxCellsAux i jip j st.2 m j m ≠
        max (relaxCellsAux i jip j st.2 m j m) (min jip (relaxCellsAux i jip j st.2 m i m)) then
        updStr (st.1, relaxCellsAux i jip j st.2 m) j m
          (max (relaxCellsAux i jip j st.2 m j m) (min jip (relaxCellsAux i jip j st.2 m i m)))
      else (st.1, relaxCellsAux i jip j st.2 m))
      = (st.1, relaxCellsAux i jip j st.2 (m + 1))
    rw [updStr]
    show _ = (st.1, if relaxCellsAux i jip j st.2 m j m ≠ _ then _ else _)
    by_cases h : relaxCellsAux i jip j st.2 m j m ≠
        max (relaxCellsAux i jip j st.2 m j m) (min jip (relaxCellsAux i jip j st.2 m i m))
    · rw [if_pos h, if_pos h]
    · rw [if_neg h, if_neg h]

theorem relaxRowsAuxS_eq (n i : Nat) (st : Mat × Mat) :
    ∀ m, relaxRowsAuxS n i st m = (st.1, relaxRowsAux n i st.2 m) := by
  intro m
  induction m with
  | zero => rfl
  | succ m ih =>
    show relaxRowS n i m (relaxRowsAuxS n i st m) = _
    rw [ih, relaxRowS, relaxCellsAuxS_eq]
    rfl

theorem relaxAuxS_eq (n : Nat) (st : Mat × Mat) :
    ∀ m, relaxAuxS n st m = (st.1, relaxAux n st.2 m) := by
  intro m
  induction m with
  | zero => rfl
  | succ m ih =>
    show relaxRowsAuxS n m (relaxAuxS n st m) n = _
    rw [ih, relaxRowsAuxS_eq]
    rfl

/-- C9: running the strength computation over the pair of both arrays — where
each of its stores is a write to the strengths component, as in the source —
leaves every cell of the preferences component unchanged, and its strengths
component is exactly `calculatePairwiseStrengths`.  Result and duel derivation
read only that strengths output, so the whole of `Compute` leaves the
preference matrix untouched. -/
theorem claim9_strengths_frame (n : Nat) (P : Mat) :
    (∀ i j, (calculatePairwiseStrengthsState n P).1 i j = P i j) ∧
      (calculatePairwiseStrengthsState n P).2 = calculatePairwiseStrengths n P := by
  have h : calculatePairwiseStrengthsState n P
      = (P, relaxAux n (initAux P n zeroMat n) n) := by
    rw [calculatePairwiseStrengthsState, initAuxS_eq, relaxAuxS_eq]
  rw [h]
  exact ⟨fun i j => rfl, rfl⟩

end Schulze
